import Mathlib

/-!
# Formal model of `UTILS/performance_metrics.py`

A shallow embedding of the metric library.  Vectors are `List ℚ` (the
spec's real-valued sequences, idealising floats as exact rationals; in
particular the `astype(np.float32)` cast on survival times is modelled as
the identity).  A metric's result is a `NpRes`:

* `NpRes.err`       — the numpy call raises (shape / index faults);
* `NpRes.nonfinite` — the call returns a non-finite float (NaN or ±Inf,
  e.g. the mean of an empty selection, or division by zero);
* `NpRes.val x`     — an ordinary finite result.
-/

inductive NpRes (α : Type) where
  | err : NpRes α
  | nonfinite : NpRes α
  | val : α → NpRes α
deriving DecidableEq

def NpRes.map {α β : Type} (f : α → β) : NpRes α → NpRes β
  | err => err
  | nonfinite => nonfinite
  | val x => val (f x)

def NpRes.bind {α β : Type} : NpRes α → (α → NpRes β) → NpRes β
  | err, _ => err
  | nonfinite, _ => nonfinite
  | val x, f => f x

/-- `np.mean` of a 1-D array: NaN (with a warning, not an exception) on an
empty array, the arithmetic mean otherwise. -/
def npMean (xs : List ℚ) : NpRes ℚ :=
  if xs.isEmpty then .nonfinite else .val (xs.sum / xs.length)

/-- Float division as numpy performs it on finite operands: division by
zero produces ±Inf or NaN (non-finite), never an exception. -/
def npDiv (a b : ℚ) : NpRes ℚ :=
  if b = 0 then .nonfinite else .val (a / b)

/-- `np.var`: mean of squared deviations from the mean; NaN on empty input. -/
def npVar (xs : List ℚ) : NpRes ℚ :=
  (npMean xs).bind fun m => npMean (xs.map fun x => (x - m) ^ 2)

/-- `np.around` / `np.round` with `decimals = 0`: round half to even. -/
def npAround (x : ℚ) : ℤ :=
  let f := ⌊x⌋
  let r := x - f
  if r < 1 / 2 then f
  else if 1 / 2 < r then f + 1
  else if 2 ∣ f then f else f + 1

/-- `astype(np.int8)` on a scalar: truncation toward zero, wrapped into
the signed byte range `[-128, 128)`. -/
def int8OfRat (q : ℚ) : ℤ :=
  (if 0 ≤ q then ⌊q⌋ else -⌊-q⌋).bmod 256

/-- The boolean mask `censor_flag.astype(np.int8) == 1`. -/
def eventMask (cf : List ℚ) : List Bool :=
  cf.map fun q => decide (int8OfRat q = 1)

/-- Elementwise `(y_pred - y_true)**2` (shapes assumed broadcast-compatible,
as the spec's equal-length invariant guarantees). -/
def sqDiffs (p t : List ℚ) : List ℚ :=
  List.zipWith (fun a b => (a - b) ^ 2) p t

/-- Elementwise `np.abs(y_pred - y_true)`. -/
def absDiffs (p t : List ℚ) : List ℚ :=
  List.zipWith (fun a b => |a - b|) p t

/-- Select the entries of `xs` at the `true` positions of a boolean mask
(the value part of numpy boolean indexing). -/
def select {α : Type} (xs : List α) (m : List Bool) : List α :=
  ((xs.zip m).filter fun pr => pr.2).map Prod.fst

/-- Apply an `Option`-valued function across a list, failing if any
application fails (models a numpy operation that may raise mid-way). -/
def mapOpt {α β : Type} (f : α → Option β) : List α → Option (List β)
  | [] => some []
  | a :: as =>
    match f a, mapOpt f as with
    | some b, some bs => some (b :: bs)
    | _, _ => none

/-- Integer fancy indexing `xs[inds]`: `IndexError` (`none`) if any index
is out of range. -/
def fancyIndex {α : Type} (xs : List α) (inds : List ℕ) : Option (List α) :=
  mapOpt (fun i => xs.get? i) inds

/-- `np.where(t == c)[0]`: the positions of `t` holding value `c`. -/
def npWhere (t : List ℚ) (c : ℚ) : List ℕ :=
  (List.range t.length).filter fun i => decide (t.get? i = some c)

/-- Order-insensitive insertion into a weakly sorted list. -/
def insertSorted (x : ℚ) : List ℚ → List ℚ
  | [] => [x]
  | y :: ys => if x ≤ y then x :: y :: ys else y :: insertSorted x ys

/-- Insertion sort on rationals. -/
def sortRat : List ℚ → List ℚ
  | [] => []
  | x :: xs => insertSorted x (sortRat xs)

/-- The distinct values of a list (each value once). -/
def distinct : List ℚ → List ℚ
  | [] => []
  | x :: xs => if x ∈ distinct xs then distinct xs else x :: distinct xs

/-- The class enumeration `set(y_true)` of `accuracy_per_class`.  CPython
set iteration order is hash-based and implementation-defined; the source's
inline comment asserts it is sorted (true for small non-negative integer
labels below the hash-table size, false in general, e.g. for `{8.0, 0.0}`).
We model the enumeration as the sorted list of distinct values; claims
about the actual iteration order are settled outside the model. -/
def classValues (t : List ℚ) : List ℚ :=
  sortRat (distinct t)

/-- `rmse`: flatten, then `np.sqrt(((y_pred - y_true)**2).mean())`. -/
noncomputable def rmse (p t : List ℚ) : NpRes ℝ :=
  (npMean (sqDiffs p t)).map fun (q : ℚ) => Real.sqrt (q : ℝ)

/-- `nmse`: flatten, then `((y_pred - y_true)**2).mean() / np.var(y_true)`. -/
def nmse (p t : List ℚ) : NpRes ℚ :=
  (npMean (sqDiffs p t)).bind fun m => (npVar t).bind fun v => npDiv m v

/-- `accuracy`: flatten, then `np.average(np.around(y_pred) == y_true)`
(the mean of the 0/1 comparison vector). -/
def accuracy (p t : List ℚ) : NpRes ℚ :=
  npMean (List.zipWith (fun a b => if ((npAround a : ℚ) = b) then (1 : ℚ) else 0) p t)

/-- `accuracy_per_class`: round predictions to integers, then for each
class value `c` in `set(y_true)` compute `accuracy` on the samples at
positions `np.where(y_true == c)`; `none` models an `IndexError` from
applying `y_true`-derived positions to a shorter prediction array. -/
def accuracy_per_class (p t : List ℚ) : Option (List (ℚ × NpRes ℚ)) :=
  let pInt : List ℚ := p.map fun a => ((npAround a : ℤ) : ℚ)
  mapOpt
    (fun c =>
      (fancyIndex pInt (npWhere t c)).bind fun ps =>
        (fancyIndex t (npWhere t c)).map fun ts => (c, accuracy ps ts))
    (classValues t)

/-- `rmse_survival`: flatten, build the event mask from the censor flags,
then `rmse` over `y_pred[d == 1]` and `y_true[d == 1]`.  Boolean indexing
raises (`err`) when the mask length differs from the array length. -/
noncomputable def rmse_survival (p t cf : List ℚ) : NpRes ℝ :=
  let d := eventMask cf
  if p.length = d.length ∧ t.length = d.length then
    (npMean (sqDiffs (select p d) (select t d))).map fun (q : ℚ) => Real.sqrt (q : ℝ)
  else .err

/-- `mse_survival`: as `rmse_survival` without the square root. -/
def mse_survival (p t cf : List ℚ) : NpRes ℚ :=
  let d := eventMask cf
  if p.length = d.length ∧ t.length = d.length then
    npMean (sqDiffs (select p d) (select t d))
  else .err

/-- `mae_survival`: mean of `np.abs(y_pred[d == 1] - y_true[d == 1])`. -/
def mae_survival (p t cf : List ℚ) : NpRes ℚ :=
  let d := eventMask cf
  if p.length = d.length ∧ t.length = d.length then
    npMean (absDiffs (select p d) (select t d))
  else .err

/-- `c_index_ours` on rank-1 prediction/truth arrays.  `d` is the event
mask, `v` the survival times (`float32` cast modelled as the identity).
For each event `(vi, yi_pred)` (the zip of `v[d==1]`, `y_pred[d==1]` and
`y_true[d==1]`, the truth values being unused), the inner comprehension
scans `y_pred[v > vi]` and builds the pair (number of `yj_pred` with
`yi_pred < yj_pred`, number of comparison partners); the two
`np.sum(..., axis=0)` add these pairs componentwise (an empty level sums
to the scalar 0, which broadcasts as the zero pair), and the result is
their quotient.  All boolean masks involved share the flattened
censor-flag length, so the single length check below covers every
indexing step of the source.

An empty inner comprehension sums to the scalar `0.0`; such a scalar
level broadcasts into the componentwise pair sum as the zero pair — but
when EVERY level is that scalar (no events at all, or every event's
comparison set empty, i.e. the total denominator is 0),
`numerator_denominator` is itself a 0-d scalar and the subsequent
`[0]`-indexing raises an `IndexError`, modelled by the zero-denominator
guard below: the source never reaches a 0/0 division. -/
def c_index_ours (ypred ytrue cf st : List ℚ) : NpRes ℚ :=
  let d := eventMask cf
  let v := st
  if ypred.length = d.length ∧ ytrue.length = d.length ∧ v.length = d.length then
    let items := (select v d).zip (select ypred d)
    let contribs := items.map fun it =>
      let js := select ypred (v.map fun vj => decide (it.1 < vj))
      (((js.countP fun yj => decide (it.2 < yj)) : ℚ), (js.length : ℚ))
    if (contribs.map Prod.snd).sum = 0 then .err
    else npDiv (contribs.map Prod.fst).sum (contribs.map Prod.snd).sum
  else .err

/-- Modelled from the spec: `r_squared` delegates to the external
`sklearn.metrics.r2_score`, which the spec describes only as the
"coefficient of determination"; we use its standard definition
`1 - SSres / SStot`. -/
def r2_score (ytrue ypred : List ℚ) : NpRes ℚ :=
  (npMean ytrue).bind fun m =>
    (npDiv (sqDiffs ytrue ypred).sum ((ytrue.map fun y => (y - m) ^ 2).sum)).map fun r => 1 - r

/-- `r_squared`: flatten, then call the external `r2_score` with the
arguments swapped to `(y_true, y_pred)`. -/
def r_squared (p t : List ℚ) : NpRes ℚ :=
  r2_score t p

/-- `float(...)` applied to the elementwise comparison `yi_pred < yj_pred`
of two rows of a rank-2 array: defined only when the comparison result has
exactly one entry (numpy's scalar conversion raises otherwise). -/
def cmpFloat (a b : List ℚ) : Option ℚ :=
  match a, b with
  | [x], [y] => some (if x < y then (1 : ℚ) else 0)
  | _, _ => none

/-- `c_index_ours` specialised to a rank-2 prediction array (the source
never flattens `y_pred`/`y_true`, so a 2-D prediction is boolean-indexed
by rows: the mask length must equal the number of rows, and each iterated
`yj_pred` is a whole row). -/
def c_index_ours2 (ypred : List (List ℚ)) (ytrue cf st : List ℚ) : NpRes ℚ :=
  let d := eventMask cf
  let v := st
  if ypred.length = d.length ∧ ytrue.length = d.length ∧ v.length = d.length then
    let items := (select v d).zip (select ypred d)
    match
      mapOpt
        (fun it =>
          let js := select ypred (v.map fun vj => decide (it.1 < vj))
          (mapOpt (fun yj => cmpFloat it.2 yj) js).map fun fs => (fs.sum, (js.length : ℚ)))
        items with
    | some contribs =>
      if (contribs.map Prod.snd).sum = 0 then .err
      else npDiv (contribs.map Prod.fst).sum (contribs.map Prod.snd).sum
    | none => .err
  else .err

/-- A numpy array of rank 1 or rank 2, as fed to the metric functions. -/
inductive NDArr where
  | one : List ℚ → NDArr
  | two : List (List ℚ) → NDArr

/-- `np.ravel`: row-major flattening. -/
def NDArr.ravel : NDArr → List ℚ
  | one xs => xs
  | two xss => xss.flatten

/-! The source functions accept arrays of any rank and (except for
`c_index` / `c_index_ours`) begin by calling `.ravel()` on predictions and
ground truth, so their action on a general array factors through `ravel`
into the rank-1 cores above. -/

noncomputable def rmseND (p t : NDArr) : NpRes ℝ :=
  rmse p.ravel t.ravel

def nmseND (p t : NDArr) : NpRes ℚ :=
  nmse p.ravel t.ravel

def accuracyND (p t : NDArr) : NpRes ℚ :=
  accuracy p.ravel t.ravel

def accuracy_per_classND (p t : NDArr) : Option (List (ℚ × NpRes ℚ)) :=
  accuracy_per_class p.ravel t.ravel

def r_squaredND (p t : NDArr) : NpRes ℚ :=
  r_squared p.ravel t.ravel

noncomputable def rmse_survivalND (p t cf : NDArr) : NpRes ℝ :=
  rmse_survival p.ravel t.ravel cf.ravel

def mse_survivalND (p t cf : NDArr) : NpRes ℚ :=
  mse_survival p.ravel t.ravel cf.ravel

def mae_survivalND (p t cf : NDArr) : NpRes ℚ :=
  mae_survival p.ravel t.ravel cf.ravel

/-! Spec-side reference definitions, written from the claims' words, to be
compared with the source embeddings above. -/

/-- The subsequence of `xs` at the indices where `censor_flag == 1`
(the spec's "manually filtered subset"). -/
def filterByFlag (xs cf : List ℚ) : List ℚ :=
  ((xs.zip cf).filter fun pr => decide (pr.2 = 1)).map Prod.fst

/-- Plain mean squared error of two aligned vectors. -/
def mse (p t : List ℚ) : NpRes ℚ :=
  npMean (sqDiffs p t)

/-- Plain mean absolute error of two aligned vectors. -/
def mae (p t : List ℚ) : NpRes ℚ :=
  npMean (absDiffs p t)

/-- Reference numerator of the concordance index, from the claim's words:
for every event sample `i` (those with `censor_flag == 1`, in input
order) and every sample `j` with `survival_time[j] > survival_time[i]`
(regardless of `j`'s censoring), count 1 when `pred[i] < pred[j]`
strictly (prediction ties count 0). -/
def refNum (p cf st : List ℚ) : ℕ :=
  (((List.range p.length).filter fun i => decide (cf.getD i 0 = 1)).map fun i =>
    ((List.range p.length).filter fun j =>
      decide (st.getD i 0 < st.getD j 0) && decide (p.getD i 0 < p.getD j 0)).length).sum

/-- Reference denominator of the concordance index, from the claim's
words: one count per comparable pair `(i, j)`. -/
def refDen (p cf st : List ℚ) : ℕ :=
  (((List.range p.length).filter fun i => decide (cf.getD i 0 = 1)).map fun i =>
    ((List.range p.length).filter fun j =>
      decide (st.getD i 0 < st.getD j 0)).length).sum

/-! ## General lemmas -/

theorem NpRes.map_val {α β : Type} (f : α → β) (x : α) :
    NpRes.map f (NpRes.val x) = NpRes.val (f x) := rfl

theorem NpRes.map_nonfinite {α β : Type} (f : α → β) :
    NpRes.map f (NpRes.nonfinite : NpRes α) = NpRes.nonfinite := rfl

theorem NpRes.bind_val {α β : Type} (x : α) (f : α → NpRes β) :
    NpRes.bind (NpRes.val x) f = f x := rfl

theorem NpRes.bind_nonfinite {α β : Type} (f : α → NpRes β) :
    NpRes.bind (NpRes.nonfinite : NpRes α) f = NpRes.nonfinite := rfl

theorem npMean_ne_err (xs : List ℚ) : npMean xs ≠ .err := by
  unfold npMean
  split <;> simp

theorem npMean_nil : npMean [] = .nonfinite := rfl

theorem npMean_of_ne_nil (xs : List ℚ) (h : xs ≠ []) :
    npMean xs = .val (xs.sum / xs.length) := by
  unfold npMean
  simp [h]

theorem range_map_getD {α : Type} (xs : List α) (d : α) :
    (List.range xs.length).map (fun i => xs.getD i d) = xs := by
  induction xs with
  | nil => simp
  | cons x xs ih =>
    rw [List.length_cons, List.range_succ_eq_map, List.map_cons, List.map_map]
    simp only [Function.comp_def, List.getD_cons_zero, List.getD_cons_succ]
    rw [ih]

theorem select_eq_range (xs cf : List ℚ) (f : ℚ → Bool) (h : xs.length = cf.length) :
    select xs (cf.map f) =
      ((List.range xs.length).filter fun i => f (cf.getD i 0)).map fun i => xs.getD i 0 := by
  have hc : cf.map f = (List.range xs.length).map fun i => f (cf.getD i 0) := by
    conv_lhs =>
      rw [show cf = (List.range cf.length).map fun i => cf.getD i 0 from
        (range_map_getD cf 0).symm]
    rw [List.map_map, h]
    rfl
  simp only [select]
  conv_lhs =>
    rw [show xs = (List.range xs.length).map fun i => xs.getD i 0 from
      (range_map_getD xs 0).symm, hc]
  rw [List.zip_map', List.filter_map, List.map_map]
  rfl

theorem select_zip_filter (xs cf : List ℚ) (f : ℚ → Bool) :
    select xs (cf.map f) = ((xs.zip cf).filter fun pr => f pr.2).map Prod.fst := by
  simp only [select, List.zip_map_right, List.filter_map, List.map_map]
  rfl

theorem select_map (f : ℚ → ℚ) (xs : List ℚ) (m : List Bool) :
    select (xs.map f) m = (select xs m).map f := by
  simp only [select, List.zip_map_left, List.filter_map, List.map_map]
  rfl

theorem select_eq_nil {α : Type} (xs : List α) (m : List Bool)
    (h : ∀ b ∈ m, b = false) : select xs m = [] := by
  simp only [select, List.map_eq_nil_iff]
  rw [List.filter_eq_nil_iff]
  intro pr hpr
  have := (List.of_mem_zip hpr).2
  simp [h _ this]

theorem mapOpt_eq_some {α β : Type} (f : α → Option β) (g : α → β) (l : List α)
    (h : ∀ a ∈ l, f a = some (g a)) : mapOpt f l = some (l.map g) := by
  induction l with
  | nil => rfl
  | cons a as ih =>
    have ha := h a (List.mem_cons_self a as)
    have has := ih fun x hx => h x (List.mem_cons_of_mem a hx)
    simp [mapOpt, ha, has]

theorem fancyIndex_eq_some (xs : List ℚ) (inds : List ℕ)
    (h : ∀ i ∈ inds, i < xs.length) :
    fancyIndex xs inds = some (inds.map fun i => xs.getD i 0) := by
  refine mapOpt_eq_some _ _ _ fun i hi => ?_
  have hlt := h i hi
  rw [List.get?_eq_get hlt, List.getD_eq_getElem?_getD, List.getElem?_eq_getElem hlt]
  rfl

theorem indicator_sum_bounds (l : List ℚ) (h : ∀ x ∈ l, x = 0 ∨ x = 1) :
    0 ≤ l.sum ∧ l.sum ≤ l.length := by
  induction l with
  | nil => simp
  | cons x xs ih =>
    have hx := h x (List.mem_cons_self x xs)
    have hxs := ih fun y hy => h y (List.mem_cons_of_mem x hy)
    have hcast : ((xs.length + 1 : ℕ) : ℚ) = (xs.length : ℚ) + 1 := by push_cast; ring
    rw [List.sum_cons, List.length_cons, hcast]
    rcases hx with hx | hx <;> subst hx <;> exact ⟨by linarith [hxs.1], by linarith [hxs.2]⟩

theorem zipWith_indicator_mem (C : ℚ → ℚ → Prop) [DecidableRel C] (p t : List ℚ) :
    ∀ x ∈ List.zipWith (fun a b => if C a b then (1 : ℚ) else 0) p t, x = 0 ∨ x = 1 := by
  induction p generalizing t with
  | nil => simp
  | cons a as ih =>
    cases t with
    | nil => simp
    | cons b bs =>
      intro x hx
      rw [List.zipWith_cons_cons, List.mem_cons] at hx
      rcases hx with hx | hx
      · subst hx
        split <;> simp
      · exact ih bs x hx

theorem mean_indicator_bounds (l : List ℚ) (hne : l ≠ [])
    (h : ∀ x ∈ l, x = 0 ∨ x = 1) :
    ∃ q, npMean l = .val q ∧ 0 ≤ q ∧ q ≤ 1 := by
  obtain ⟨h0, h1⟩ := indicator_sum_bounds l h
  have hlen : (0 : ℚ) < l.length := by
    have : l.length ≠ 0 := fun hc => hne (List.length_eq_zero.mp hc)
    positivity
  refine ⟨l.sum / l.length, npMean_of_ne_nil l hne, div_nonneg h0 hlen.le, ?_⟩
  rw [div_le_one hlen]
  exact h1

theorem accuracy_bounds (p t : List ℚ) (hne : p ≠ []) (hlen : p.length = t.length) :
    ∃ q, accuracy p t = .val q ∧ 0 ≤ q ∧ q ≤ 1 := by
  unfold accuracy
  refine mean_indicator_bounds _ ?_ (zipWith_indicator_mem _ p t)
  have : (List.zipWith (fun a b => if ((npAround a : ℚ) = b) then (1 : ℚ) else 0) p t).length
      = p.length := by
    rw [List.length_zipWith, hlen, min_self]
  intro hc
  rw [hc] at this
  exact hne (List.length_eq_zero.mp (hlen ▸ this.symm))

theorem npVar_isVal (t : List ℚ) (h : t ≠ []) : ∃ w, npVar t = .val w := by
  unfold npVar
  rw [npMean_of_ne_nil t h, NpRes.bind_val]
  have hm : (t.map fun x => (x - t.sum / t.length) ^ 2) ≠ [] := fun hc =>
    h (List.map_eq_nil_iff.mp hc)
  rw [npMean_of_ne_nil _ hm]
  exact ⟨_, rfl⟩

theorem eventMask_length (cf : List ℚ) : (eventMask cf).length = cf.length :=
  List.length_map cf _

theorem insertSorted_mem (x a : ℚ) (l : List ℚ) :
    a ∈ insertSorted x l ↔ a = x ∨ a ∈ l := by
  induction l with
  | nil => simp [insertSorted]
  | cons y ys ih =>
    by_cases hxy : x ≤ y
    · simp [insertSorted, hxy]
    · simp only [insertSorted, if_neg hxy, List.mem_cons, ih]
      tauto

theorem sortRat_mem (a : ℚ) (l : List ℚ) : a ∈ sortRat l ↔ a ∈ l := by
  induction l with
  | nil => simp [sortRat]
  | cons x xs ih => simp [sortRat, insertSorted_mem, ih]

theorem distinct_mem (l : List ℚ) : ∀ a : ℚ, a ∈ distinct l ↔ a ∈ l := by
  induction l with
  | nil => simp [distinct]
  | cons x xs ih =>
    intro a
    by_cases hx : x ∈ distinct xs
    · rw [distinct, if_pos hx, ih a, List.mem_cons]
      have hxxs : x ∈ xs := (ih x).mp hx
      constructor
      · exact Or.inr
      · rintro (rfl | h)
        · exact hxxs
        · exact h
    · rw [distinct, if_neg hx, List.mem_cons, ih a, List.mem_cons]

theorem classValues_mem (c : ℚ) (t : List ℚ) : c ∈ classValues t ↔ c ∈ t := by
  rw [classValues, sortRat_mem, distinct_mem t c]

theorem npWhere_lt (t : List ℚ) (c : ℚ) : ∀ i ∈ npWhere t c, i < t.length := by
  intro i hi
  rw [npWhere, List.mem_filter, List.mem_range] at hi
  exact hi.1

theorem npWhere_getD (t : List ℚ) (c : ℚ) : ∀ i ∈ npWhere t c, t.getD i 0 = c := by
  intro i hi
  rw [npWhere, List.mem_filter, List.mem_range] at hi
  have := of_decide_eq_true hi.2
  rw [List.getD_eq_getElem?_getD, ← List.get?_eq_getElem?, this]
  rfl

theorem npWhere_ne_nil (t : List ℚ) (c : ℚ) (h : c ∈ t) : npWhere t c ≠ [] := by
  obtain ⟨i, hi⟩ := List.get_of_mem h
  have : i.1 ∈ npWhere t c := by
    rw [npWhere, List.mem_filter, List.mem_range]
    exact ⟨i.2, by rw [List.get?_eq_get i.2, hi]; simp⟩
  intro hc
  rw [hc] at this
  exact List.not_mem_nil _ this

theorem int8OfRat_zero : int8OfRat 0 = 0 := by norm_num [int8OfRat]

theorem int8OfRat_one : int8OfRat 1 = 1 := by
  rw [int8OfRat, if_pos (by norm_num), Int.floor_one]
  decide

theorem accuracy_singleton (x y : ℚ) :
    accuracy [x] [y] = .val (if ((npAround x : ℚ) = y) then (1 : ℚ) else 0) := by
  unfold accuracy
  rw [List.zipWith_cons_cons, List.zipWith_nil_right]
  rw [npMean_of_ne_nil _ (by simp)]
  simp

/-! ## Claims -/

/-- C5: on degenerate inputs the functions return a non-finite value
rather than raising: `nmse` with zero-variance ground truth divides by
zero and is non-finite, and every `*_survival` function with no
`censor_flag == 1` entries reduces over an empty selection and is
non-finite. -/
theorem c5_degenerate_nonfinite (p t cf : List ℚ) (hvar : npVar t = .val 0)
    (hp : cf.length = p.length) (ht : cf.length = t.length)
    (hno : ∀ q ∈ cf, int8OfRat q ≠ 1) :
    nmse p t = .nonfinite ∧ mse_survival p t cf = .nonfinite ∧
      rmse_survival p t cf = .nonfinite ∧ mae_survival p t cf = .nonfinite := by
  have hmask : ∀ b ∈ eventMask cf, b = false := by
    intro b hb
    rw [eventMask, List.mem_map] at hb
    obtain ⟨q, hq, rfl⟩ := hb
    simpa using hno q hq
  have hcond : p.length = (eventMask cf).length ∧ t.length = (eventMask cf).length :=
    ⟨by rw [eventMask_length, ← hp], by rw [eventMask_length, ← ht]⟩
  have hselp : select p (eventMask cf) = [] := select_eq_nil _ _ hmask
  have hselt : select t (eventMask cf) = [] := select_eq_nil _ _ hmask
  refine ⟨?_, ?_, ?_, ?_⟩
  · cases hm : npMean (sqDiffs p t) with
    | err => exact absurd hm (npMean_ne_err _)
    | nonfinite => rw [nmse, hm, NpRes.bind_nonfinite]
    | val m =>
      rw [nmse, hm, NpRes.bind_val, hvar, NpRes.bind_val, npDiv, if_pos rfl]
  · simp only [mse_survival]
    rw [if_pos hcond, hselp, hselt]
    rfl
  · simp only [rmse_survival]
    rw [if_pos hcond, hselp, hselt]
    rfl
  · simp only [mae_survival]
    rw [if_pos hcond, hselp, hselt]
    rfl

/-- C5 witness: concrete degenerate inputs. -/
theorem c5_degenerate_nonfinite_witness :
    (npVar [(2 : ℚ), 2] = .val 0 ∧ (∀ q ∈ [(0 : ℚ), 0], int8OfRat q ≠ 1)) ∧
      (nmse [(1 : ℚ), 2] [(2 : ℚ), 2] = .nonfinite ∧
        mse_survival [(1 : ℚ), 2] [(2 : ℚ), 2] [0, 0] = .nonfinite ∧
        rmse_survival [(1 : ℚ), 2] [(2 : ℚ), 2] [0, 0] = .nonfinite ∧
        mae_survival [(1 : ℚ), 2] [(2 : ℚ), 2] [0, 0] = .nonfinite) := by
  have hv : npVar [(2 : ℚ), 2] = .val 0 := by
    rw [npVar, npMean_of_ne_nil _ (by simp), NpRes.bind_val]
    rw [npMean_of_ne_nil _ (by simp)]
    norm_num
  have hq : ∀ q ∈ [(0 : ℚ), 0], int8OfRat q ≠ 1 := by
    intro q hq
    have : q = 0 := by simpa using hq
    subst this
    simp [int8OfRat_zero]
  exact ⟨⟨hv, hq⟩, c5_degenerate_nonfinite _ _ _ hv rfl rfl hq⟩

/-- C6 counterexample: `accuracy(t, t)` is not 1 for every vector `t`; at
`t = [1/2]` the rounded prediction 0 differs from the truth 1/2, so the
accuracy is 0, and on the empty vector the result is non-finite rather
than a value in [0, 1]. -/
theorem c6_accuracy_counterexample :
    accuracy [(1 : ℚ) / 2] [(1 : ℚ) / 2] = .val 0 ∧
      accuracy [(1 : ℚ) / 2] [(1 : ℚ) / 2] ≠ .val 1 ∧
      accuracy ([] : List ℚ) [] = .nonfinite := by
  have h : accuracy [(1 : ℚ) / 2] [(1 : ℚ) / 2] = .val 0 := by
    rw [accuracy_singleton]
    norm_num [npAround]
  exact ⟨h, by rw [h]; intro hc; exact absurd (NpRes.val.inj hc) (by norm_num), rfl⟩

/-- C6 (amended): for every pair of equal-length vectors with at least
one entry, `accuracy` returns a value in [0, 1]; and `accuracy(t, t) = 1`
whenever the entries of (the non-empty) `t` are fixed by the rounding
step (in particular for integer-valued `t`). -/
theorem c6_accuracy_range_and_exact (p t : List ℚ) (hlen : p.length = t.length)
    (hne : p ≠ []) :
    (∃ q, accuracy p t = .val q ∧ 0 ≤ q ∧ q ≤ 1) ∧
      ((∀ x ∈ t, ((npAround x : ℤ) : ℚ) = x) → accuracy t t = .val 1) := by
  refine ⟨accuracy_bounds p t hne hlen, fun hint => ?_⟩
  have htne : t ≠ [] := by
    intro hc
    rw [hc] at hlen
    exact hne (List.length_eq_zero.mp hlen)
  unfold accuracy
  rw [List.zipWith_same]
  have hmap : (t.map fun a => if ((npAround a : ℚ) = a) then (1 : ℚ) else 0)
      = t.map (Function.const ℚ (1 : ℚ)) :=
    List.map_congr_left fun a ha => by rw [if_pos (hint a ha)]; rfl
  rw [hmap, List.map_const]
  have hrep : List.replicate t.length (1 : ℚ) ≠ [] := by
    intro hc
    have := congrArg List.length hc
    rw [List.length_replicate] at this
    exact htne (List.length_eq_zero.mp this)
  rw [npMean_of_ne_nil _ hrep, List.sum_replicate, List.length_replicate]
  have hlen0 : (t.length : ℚ) ≠ 0 := by
    exact_mod_cast fun hc => htne (List.length_eq_zero.mp hc)
  rw [nsmul_eq_mul, mul_one, div_self hlen0]

/-- C6 witness for the amended claim (with a non-round-fixed prediction
against a non-round-fixed truth exercised separately below). -/
theorem c6_accuracy_range_and_exact_witness :
    ([(3 : ℚ) / 2].length = [(1 : ℚ)].length ∧ [(3 : ℚ) / 2] ≠ []) ∧
      ((∃ q, accuracy [(3 : ℚ) / 2] [(1 : ℚ)] = .val q ∧ 0 ≤ q ∧ q ≤ 1) ∧
        ((∀ x ∈ [(1 : ℚ)], ((npAround x : ℤ) : ℚ) = x) →
          accuracy [(1 : ℚ)] [(1 : ℚ)] = .val 1)) :=
  ⟨⟨rfl, by simp⟩, c6_accuracy_range_and_exact _ _ rfl (by simp)⟩

/-- C7: for non-empty equal-length vectors with nonzero ground-truth
variance, `rmse(pred, true) = sqrt(nmse(pred, true) * var(true))`. -/
theorem c7_rmse_eq_sqrt_nmse_mul_var (p t : List ℚ) (hlen : p.length = t.length)
    (hne : p ≠ []) (hv : npVar t ≠ .val 0) :
    ∃ q v, nmse p t = .val q ∧ npVar t = .val v ∧
      rmse p t = .val (Real.sqrt ((q * v : ℚ) : ℝ)) := by
  have htne : t ≠ [] := by
    intro hc
    rw [hc] at hlen
    exact hne (List.length_eq_zero.mp hlen)
  obtain ⟨w, hw⟩ := npVar_isVal t htne
  have hwne : w ≠ 0 := fun hc => hv (hc ▸ hw)
  have hsq : sqDiffs p t ≠ [] := by
    intro hc
    have := congrArg List.length hc
    rw [sqDiffs, List.length_zipWith, hlen, min_self] at this
    exact htne (List.length_eq_zero.mp (hlen ▸ this))
  have hm := npMean_of_ne_nil _ hsq
  refine ⟨(sqDiffs p t).sum / (sqDiffs p t).length / w, w, ?_, hw, ?_⟩
  · rw [nmse, hm, NpRes.bind_val, hw, NpRes.bind_val, npDiv, if_neg hwne]
  · rw [rmse, hm, NpRes.map_val]
    have harg : (((sqDiffs p t).sum / (sqDiffs p t).length / w * w : ℚ) : ℝ)
        = (((sqDiffs p t).sum / (sqDiffs p t).length : ℚ) : ℝ) := by
      rw [div_mul_cancel₀ _ hwne]
    rw [harg]

/-- C7 witness. -/
theorem c7_rmse_eq_sqrt_nmse_mul_var_witness :
    ([(0 : ℚ), 1].length = [(1 : ℚ), 0].length ∧ [(0 : ℚ), 1] ≠ [] ∧
        npVar [(1 : ℚ), 0] ≠ .val 0) ∧
      (∃ q v, nmse [(0 : ℚ), 1] [(1 : ℚ), 0] = .val q ∧
        npVar [(1 : ℚ), 0] = .val v ∧
        rmse [(0 : ℚ), 1] [(1 : ℚ), 0] = .val (Real.sqrt ((q * v : ℚ) : ℝ))) := by
  have hv : npVar [(1 : ℚ), 0] = .val (1 / 4) := by
    rw [npVar, npMean_of_ne_nil _ (by simp), NpRes.bind_val]
    rw [npMean_of_ne_nil _ (by simp)]
    norm_num
  have hvne : npVar [(1 : ℚ), 0] ≠ .val 0 := by
    rw [hv]
    intro hc
    exact absurd (NpRes.val.inj hc) (by norm_num)
  exact ⟨⟨rfl, by simp, hvne⟩,
    c7_rmse_eq_sqrt_nmse_mul_var _ _ rfl (by simp) hvne⟩

/-- C10: `accuracy` (and the rounding step of `accuracy_per_class`, which
is the same `np.around`) rounds halves to the even neighbour: `2k + 1/2`
rounds to `2k` and `2k + 3/2` rounds to `2k + 2`, so a halfway prediction
counts as correct against the even neighbouring truth value and incorrect
against the odd one. -/
theorem c10_round_half_to_even (k : ℤ) :
    npAround (2 * (k : ℚ) + 1 / 2) = 2 * k ∧
      npAround (2 * (k : ℚ) + 3 / 2) = 2 * k + 2 ∧
      accuracy [2 * (k : ℚ) + 1 / 2] [2 * (k : ℚ)] = .val 1 ∧
      accuracy [2 * (k : ℚ) + 1 / 2] [2 * (k : ℚ) + 1] = .val 0 ∧
      accuracy [2 * (k : ℚ) + 3 / 2] [2 * (k : ℚ) + 2] = .val 1 ∧
      accuracy [2 * (k : ℚ) + 3 / 2] [2 * (k : ℚ) + 1] = .val 0 := by
  have hfloor1 : ⌊2 * (k : ℚ) + 1 / 2⌋ = 2 * k := by
    have h : 2 * (k : ℚ) + 1 / 2 = ((2 * k : ℤ) : ℚ) + 1 / 2 := by push_cast; ring
    rw [h, Int.floor_int_add]
    norm_num
  have hfloor2 : ⌊2 * (k : ℚ) + 3 / 2⌋ = 2 * k + 1 := by
    have h : 2 * (k : ℚ) + 3 / 2 = ((2 * k + 1 : ℤ) : ℚ) + 1 / 2 := by push_cast; ring
    rw [h, Int.floor_int_add]
    norm_num
  have hr1 : npAround (2 * (k : ℚ) + 1 / 2) = 2 * k := by
    simp only [npAround, hfloor1]
    have hd : (2 * (k : ℚ) + 1 / 2) - ((2 * k : ℤ) : ℚ) = 1 / 2 := by push_cast; ring
    rw [hd, if_neg (by norm_num), if_neg (by norm_num), if_pos ⟨k, by ring⟩]
  have hr2 : npAround (2 * (k : ℚ) + 3 / 2) = 2 * k + 2 := by
    simp only [npAround, hfloor2]
    have hd : (2 * (k : ℚ) + 3 / 2) - ((2 * k + 1 : ℤ) : ℚ) = 1 / 2 := by push_cast; ring
    rw [hd, if_neg (by norm_num), if_neg (by norm_num), if_neg (by omega)]
    ring
  have heven : ((2 * k : ℤ) : ℚ) = 2 * (k : ℚ) := by push_cast; ring
  have hodd1 : ((2 * k : ℤ) : ℚ) ≠ 2 * (k : ℚ) + 1 := by
    rw [heven]
    intro hc
    linarith
  have heven2 : ((2 * k + 2 : ℤ) : ℚ) = 2 * (k : ℚ) + 2 := by push_cast; ring
  have hodd2 : ((2 * k + 2 : ℤ) : ℚ) ≠ 2 * (k : ℚ) + 1 := by
    rw [heven2]
    intro hc
    linarith
  refine ⟨hr1, hr2, ?_, ?_, ?_, ?_⟩
  · rw [accuracy_singleton, hr1, if_pos heven]
  · rw [accuracy_singleton, hr1, if_neg hodd1]
  · rw [accuracy_singleton, hr2, if_pos heven2]
  · rw [accuracy_singleton, hr2, if_neg hodd2]

theorem select_eventMask_eq_filterByFlag (xs cf : List ℚ)
    (hbin : ∀ q ∈ cf, q = 0 ∨ q = 1) :
    select xs (eventMask cf) = filterByFlag xs cf := by
  rw [eventMask, select_zip_filter, filterByFlag]
  congr 1
  refine List.filter_congr fun pr hpr => ?_
  obtain ⟨a, b⟩ := pr
  have hb : b ∈ cf := (List.of_mem_zip hpr).2
  rcases hbin b hb with h | h <;> rw [h] <;>
    simp [int8OfRat_zero, int8OfRat_one]

/-- C2: each `*_survival` metric on `(pred, true, censor_flag)` equals the
plain metric applied to the subsequences of `pred` and `true` at the
indices where `censor_flag == 1`. -/
theorem c2_survival_equals_filtered (p t cf : List ℚ) (hp : cf.length = p.length)
    (ht : cf.length = t.length) (hbin : ∀ q ∈ cf, q = 0 ∨ q = 1)
    (_hone : ∃ q ∈ cf, q = 1) :
    rmse_survival p t cf = rmse (filterByFlag p cf) (filterByFlag t cf) ∧
      mse_survival p t cf = mse (filterByFlag p cf) (filterByFlag t cf) ∧
      mae_survival p t cf = mae (filterByFlag p cf) (filterByFlag t cf) := by
  have hcond : p.length = (eventMask cf).length ∧ t.length = (eventMask cf).length :=
    ⟨by rw [eventMask_length, ← hp], by rw [eventMask_length, ← ht]⟩
  have hsp := select_eventMask_eq_filterByFlag p cf hbin
  have hst := select_eventMask_eq_filterByFlag t cf hbin
  refine ⟨?_, ?_, ?_⟩
  · simp only [rmse_survival]
    rw [if_pos hcond, hsp, hst]
    rfl
  · simp only [mse_survival]
    rw [if_pos hcond, hsp, hst]
    rfl
  · simp only [mae_survival]
    rw [if_pos hcond, hsp, hst]
    rfl

/-- C2 witness. -/
theorem c2_survival_equals_filtered_witness :
    ((∀ q ∈ [(1 : ℚ), 0], q = 0 ∨ q = 1) ∧ (∃ q ∈ [(1 : ℚ), 0], q = 1)) ∧
      (rmse_survival [(1 : ℚ), 2] [(0 : ℚ), 1] [1, 0]
          = rmse (filterByFlag [(1 : ℚ), 2] [1, 0]) (filterByFlag [(0 : ℚ), 1] [1, 0]) ∧
        mse_survival [(1 : ℚ), 2] [(0 : ℚ), 1] [1, 0]
          = mse (filterByFlag [(1 : ℚ), 2] [1, 0]) (filterByFlag [(0 : ℚ), 1] [1, 0]) ∧
        mae_survival [(1 : ℚ), 2] [(0 : ℚ), 1] [1, 0]
          = mae (filterByFlag [(1 : ℚ), 2] [1, 0]) (filterByFlag [(0 : ℚ), 1] [1, 0])) := by
  have hbin : ∀ q ∈ [(1 : ℚ), 0], q = 0 ∨ q = 1 := by
    intro q hq
    rcases (by simpa using hq : q = 1 ∨ q = 0) with h | h
    · exact Or.inr h
    · exact Or.inl h
  have hone : ∃ q ∈ [(1 : ℚ), 0], q = 1 := ⟨1, by simp, rfl⟩
  exact ⟨⟨hbin, hone⟩, c2_survival_equals_filtered _ _ _ rfl rfl hbin hone⟩

theorem cio_contribs_invariant (f : ℚ → ℚ) (hf : StrictMono f) (p st : List ℚ)
    (d : List Bool) :
    ((select st d).zip (select (p.map f) d)).map (fun it =>
        ((((select (p.map f) (st.map fun vj => decide (it.1 < vj))).countP
            fun yj => decide (it.2 < yj)) : ℚ),
          ((select (p.map f) (st.map fun vj => decide (it.1 < vj))).length : ℚ)))
      = ((select st d).zip (select p d)).map (fun it =>
        ((((select p (st.map fun vj => decide (it.1 < vj))).countP
            fun yj => decide (it.2 < yj)) : ℚ),
          ((select p (st.map fun vj => decide (it.1 < vj))).length : ℚ))) := by
  rw [select_map f p d, List.zip_map_right, List.map_map]
  refine List.map_congr_left fun it hit => ?_
  simp only [Function.comp_def, Prod.map, id]
  rw [select_map f p (st.map fun vj => decide (it.1 < vj)), List.countP_map,
    List.length_map]
  have hcnt : ((fun yj => decide (f it.2 < yj)) ∘ f) = fun yj => decide (it.2 < yj) := by
    funext yj
    simp [Function.comp_def, decide_eq_decide, hf.lt_iff_lt]
  rw [hcnt]

/-- C8: `c_index_ours` is invariant under any strictly increasing
transform applied elementwise to the predictions — it depends only on the
relative ordering of the predicted values. -/
theorem c8_monotone_invariance (f : ℚ → ℚ) (hf : StrictMono f)
    (p t cf st : List ℚ) :
    c_index_ours (p.map f) t cf st = c_index_ours p t cf st := by
  simp only [c_index_ours, List.length_map]
  by_cases hcond : p.length = (eventMask cf).length ∧
      t.length = (eventMask cf).length ∧ st.length = (eventMask cf).length
  · rw [if_pos hcond, if_pos hcond, cio_contribs_invariant f hf p st (eventMask cf)]
  · rw [if_neg hcond, if_neg hcond]

/-- C8 witness: the shift `x ↦ x + 1` is strictly increasing and leaves a
concrete concordance value unchanged. -/
theorem c8_monotone_invariance_witness :
    StrictMono (fun x : ℚ => x + 1) ∧
      c_index_ours ([(1 : ℚ), 2].map fun x => x + 1) [0, 0] [1, 0] [0, 1]
        = c_index_ours [(1 : ℚ), 2] [0, 0] [1, 0] [0, 1] := by
  have hmono : StrictMono (fun x : ℚ => x + 1) := fun a b h => by simpa using h
  exact ⟨hmono, c8_monotone_invariance _ hmono [(1 : ℚ), 2] [0, 0] [1, 0] [0, 1]⟩

/-- C9: for a non-empty ground truth (and an equal-length prediction
vector, the library's universal invariant), `accuracy_per_class` succeeds
and every returned pair carries a class value drawn from the ground-truth
vector and a well-defined accuracy in [0, 1] — the per-class selection is
never empty. -/
theorem c9_per_class_accuracy_welldefined (p t : List ℚ)
    (hlen : p.length = t.length) (_hne : t ≠ []) :
    ∃ l, accuracy_per_class p t = some l ∧
      ∀ pr ∈ l, pr.1 ∈ t ∧ ∃ q, pr.2 = .val q ∧ 0 ≤ q ∧ q ≤ 1 := by
  simp only [accuracy_per_class]
  have hpIlen : (p.map fun a => ((npAround a : ℤ) : ℚ)).length = t.length := by
    rw [List.length_map]
    exact hlen
  have hsome : ∀ c ∈ classValues t,
      ((fancyIndex (p.map fun a => ((npAround a : ℤ) : ℚ)) (npWhere t c)).bind fun ps =>
          (fancyIndex t (npWhere t c)).map fun ts => (c, accuracy ps ts))
        = some (c, accuracy
            ((npWhere t c).map fun i => (p.map fun a => ((npAround a : ℤ) : ℚ)).getD i 0)
            ((npWhere t c).map fun i => t.getD i 0)) := by
    intro c _
    rw [fancyIndex_eq_some _ _ (fun i hi => hpIlen ▸ npWhere_lt t c i hi),
      fancyIndex_eq_some t _ (npWhere_lt t c)]
    rfl
  rw [mapOpt_eq_some _ _ _ hsome]
  refine ⟨_, rfl, ?_⟩
  intro pr hpr
  rw [List.mem_map] at hpr
  obtain ⟨c, hc, rfl⟩ := hpr
  have hct : c ∈ t := (classValues_mem c t).mp hc
  refine ⟨hct, ?_⟩
  have hwne : npWhere t c ≠ [] := npWhere_ne_nil t c hct
  have h1 : ((npWhere t c).map fun i => (p.map fun a => ((npAround a : ℤ) : ℚ)).getD i 0)
      ≠ [] := by
    intro hcnil
    exact hwne (List.map_eq_nil_iff.mp hcnil)
  exact accuracy_bounds _ _ h1 (by rw [List.length_map, List.length_map])

/-- C9 witness. -/
theorem c9_per_class_accuracy_welldefined_witness :
    ([(1 : ℚ), 2].length = [(0 : ℚ), 1].length ∧ [(0 : ℚ), 1] ≠ []) ∧
      (∃ l, accuracy_per_class [(1 : ℚ), 2] [(0 : ℚ), 1] = some l ∧
        ∀ pr ∈ l, pr.1 ∈ [(0 : ℚ), 1] ∧ ∃ q, pr.2 = .val q ∧ 0 ≤ q ∧ q ≤ 1) :=
  ⟨⟨rfl, by simp⟩,
    c9_per_class_accuracy_welldefined [(1 : ℚ), 2] [(0 : ℚ), 1] rfl (by simp)⟩

theorem select_eventMask_eq (xs cf : List ℚ) (h : xs.length = cf.length) :
    select xs (eventMask cf)
      = ((List.range xs.length).filter fun i =>
          decide (int8OfRat (cf.getD i 0) = 1)).map fun i => xs.getD i 0 := by
  rw [eventMask]
  exact select_eq_range xs cf _ h

theorem select_timeMask_eq (xs st : List ℚ) (h : xs.length = st.length) (a : ℚ) :
    select xs (st.map fun vj => decide (a < vj))
      = ((List.range xs.length).filter fun j =>
          decide (a < st.getD j 0)).map fun j => xs.getD j 0 :=
  select_eq_range xs st _ h

theorem cio_item_eq (p st : List ℚ) (hps : p.length = st.length) (a b : ℚ) :
    ((((select p (st.map fun vj => decide (a < vj))).countP
        fun yj => decide (b < yj)) : ℚ),
      ((select p (st.map fun vj => decide (a < vj))).length : ℚ))
      = ((((List.range p.length).filter fun j =>
            decide (a < st.getD j 0) && decide (b < p.getD j 0)).length : ℚ),
         (((List.range p.length).filter fun j =>
            decide (a < st.getD j 0)).length : ℚ)) := by
  rw [select_timeMask_eq p st hps a, List.countP_map, List.length_map]
  congr 2
  rw [List.countP_eq_length_filter, List.filter_filter]
  refine congrArg List.length (List.filter_congr fun j hj => ?_)
  simp only [Function.comp_def]
  exact Bool.and_comm _ _

theorem eventMask_eq_of_binary (cf : List ℚ) (hbin : ∀ q ∈ cf, q = 0 ∨ q = 1) :
    eventMask cf = cf.map fun q => decide (q = 1) := by
  rw [eventMask]
  refine List.map_congr_left fun q hq => ?_
  rcases hbin q hq with h | h <;> subst h <;>
    simp [int8OfRat_zero, int8OfRat_one]

theorem select_eventMask_eq_binary (xs cf : List ℚ) (h : xs.length = cf.length)
    (hbin : ∀ q ∈ cf, q = 0 ∨ q = 1) :
    select xs (eventMask cf)
      = ((List.range xs.length).filter fun i => decide (cf.getD i 0 = 1)).map
          fun i => xs.getD i 0 := by
  rw [eventMask_eq_of_binary cf hbin]
  exact select_eq_range xs cf _ h

theorem cio_sums (p cf st : List ℚ) (hc : cf.length = p.length)
    (hs : st.length = p.length) (hbin : ∀ q ∈ cf, q = 0 ∨ q = 1) :
    ((((select st (eventMask cf)).zip (select p (eventMask cf))).map (fun it =>
          ((((select p (st.map fun vj => decide (it.1 < vj))).countP
              fun yj => decide (it.2 < yj)) : ℚ),
            ((select p (st.map fun vj => decide (it.1 < vj))).length : ℚ)))).map
        Prod.fst).sum = ((refNum p cf st : ℕ) : ℚ) ∧
      ((((select st (eventMask cf)).zip (select p (eventMask cf))).map (fun it =>
          ((((select p (st.map fun vj => decide (it.1 < vj))).countP
              fun yj => decide (it.2 < yj)) : ℚ),
            ((select p (st.map fun vj => decide (it.1 < vj))).length : ℚ)))).map
        Prod.snd).sum = ((refDen p cf st : ℕ) : ℚ) := by
  rw [select_eventMask_eq_binary st cf (by omega) hbin,
    select_eventMask_eq_binary p cf (by omega) hbin, hs, List.zip_map']
  constructor
  · simp only [List.map_map]
    rw [refNum, Nat.cast_list_sum, List.map_map]
    refine congrArg List.sum (List.map_congr_left fun i _ => ?_)
    have h := congrArg Prod.fst (cio_item_eq p st (by omega) (st.getD i 0) (p.getD i 0))
    simpa using h
  · simp only [List.map_map]
    rw [refDen, Nat.cast_list_sum, List.map_map]
    refine congrArg List.sum (List.map_congr_left fun i _ => ?_)
    have h := congrArg Prod.snd (cio_item_eq p st (by omega) (st.getD i 0) (p.getD i 0))
    simpa using h

/-- C1: whenever the reference denominator is nonzero (some comparable
pair exists, so the source reaches its final division instead of the 0-d
scalar `IndexError`), `c_index_ours` equals the reference computation of
the claim — over all event samples `i` (`censor_flag == 1`, flags taking
the data model's 0/1 values), against all samples `j` with strictly
larger survival time, count strictly-larger predictions in the numerator
and comparable pairs in the denominator, and divide. -/
theorem c1_c_index_ours_matches_reference (p t cf st : List ℚ)
    (hc : cf.length = p.length) (ht : t.length = p.length)
    (hs : st.length = p.length) (hbin : ∀ q ∈ cf, q = 0 ∨ q = 1)
    (hden : refDen p cf st ≠ 0) :
    c_index_ours p t cf st = npDiv (refNum p cf st) (refDen p cf st) := by
  have hd : (eventMask cf).length = p.length := by rw [eventMask_length, hc]
  have hcond : p.length = (eventMask cf).length ∧ t.length = (eventMask cf).length ∧
      st.length = (eventMask cf).length := ⟨by omega, by omega, by omega⟩
  obtain ⟨hnum, hden2⟩ := cio_sums p cf st hc hs hbin
  simp only [c_index_ours]
  rw [if_pos hcond, hnum, hden2, if_neg (by exact_mod_cast hden)]

/-- C1 witness. -/
theorem c1_c_index_ours_matches_reference_witness :
    ([(1 : ℚ), 0].length = [(1 : ℚ), 2].length ∧
        [(0 : ℚ), 0].length = [(1 : ℚ), 2].length ∧
        [(0 : ℚ), 1].length = [(1 : ℚ), 2].length ∧
        (∀ q ∈ [(1 : ℚ), 0], q = 0 ∨ q = 1) ∧
        refDen [(1 : ℚ), 2] [1, 0] [0, 1] ≠ 0) ∧
      c_index_ours [(1 : ℚ), 2] [(0 : ℚ), 0] [1, 0] [0, 1]
        = npDiv (refNum [(1 : ℚ), 2] [1, 0] [0, 1])
            (refDen [(1 : ℚ), 2] [1, 0] [0, 1]) := by
  have hbin : ∀ q ∈ [(1 : ℚ), 0], q = 0 ∨ q = 1 := by
    intro q hq
    rcases (by simpa using hq : q = 1 ∨ q = 0) with h | h
    · exact Or.inr h
    · exact Or.inl h
  have hr2 : List.range 2 = [0, 1] := by decide
  have hden : refDen [(1 : ℚ), 2] [1, 0] [0, 1] ≠ 0 := by
    have hval : refDen [(1 : ℚ), 2] [1, 0] [0, 1] = 1 := by
      rw [refDen]
      norm_num [hr2]
    rw [hval]
    exact one_ne_zero
  exact ⟨⟨rfl, rfl, rfl, hbin, hden⟩,
    c1_c_index_ours_matches_reference [(1 : ℚ), 2] [(0 : ℚ), 0] [1, 0] [0, 1]
      rfl rfl rfl hbin hden⟩

/-- C4 (amended): every function except `c_index` / `c_index_ours`
flattens its prediction and ground-truth inputs (and any auxiliary
arrays) before use, so on a multi-dimensional array each behaves exactly
as on the flattened one-dimensional form. -/
theorem c4_metrics_factor_through_ravel (p t cf : NDArr) :
    rmseND p t = rmse p.ravel t.ravel ∧
      nmseND p t = nmse p.ravel t.ravel ∧
      accuracyND p t = accuracy p.ravel t.ravel ∧
      accuracy_per_classND p t = accuracy_per_class p.ravel t.ravel ∧
      r_squaredND p t = r_squared p.ravel t.ravel ∧
      rmse_survivalND p t cf = rmse_survival p.ravel t.ravel cf.ravel ∧
      mse_survivalND p t cf = mse_survival p.ravel t.ravel cf.ravel ∧
      mae_survivalND p t cf = mae_survival p.ravel t.ravel cf.ravel :=
  ⟨rfl, rfl, rfl, rfl, rfl, rfl, rfl, rfl⟩

/-- C4 counterexample: `c_index_ours` does not flatten its prediction
array.  On the 1×2 prediction `[[1, 2]]` the event mask has length 2 but
the array has one row, so boolean indexing raises, while the flattened
prediction `[1, 2]` yields the value 1. -/
theorem c4_c_index_ours_counterexample :
    c_index_ours2 [[(1 : ℚ), 2]] [(0 : ℚ), 0] [1, 0] [0, 1] = .err ∧
      c_index_ours (NDArr.ravel (.two [[(1 : ℚ), 2]])) [(0 : ℚ), 0] [1, 0] [0, 1]
        = .val 1 ∧
      c_index_ours2 [[(1 : ℚ), 2]] [(0 : ℚ), 0] [1, 0] [0, 1]
        ≠ c_index_ours (NDArr.ravel (.two [[(1 : ℚ), 2]])) [(0 : ℚ), 0] [1, 0] [0, 1] := by
  have hravel : NDArr.ravel (.two [[(1 : ℚ), 2]]) = [1, 2] := rfl
  have h2 : c_index_ours2 [[(1 : ℚ), 2]] [(0 : ℚ), 0] [1, 0] [0, 1] = .err := by
    have hcond : ¬(([[(1 : ℚ), 2]] : List (List ℚ)).length = (eventMask [1, 0]).length ∧
        ([(0 : ℚ), 0] : List ℚ).length = (eventMask [1, 0]).length ∧
        ([(0 : ℚ), 1] : List ℚ).length = (eventMask [1, 0]).length) := by
      simp [eventMask]
    simp only [c_index_ours2]
    rw [if_neg hcond]
  have h1 : c_index_ours [(1 : ℚ), 2] [(0 : ℚ), 0] [1, 0] [0, 1] = .val 1 := by
    simp [c_index_ours, eventMask, int8OfRat_one, int8OfRat_zero, select, npDiv]
  refine ⟨h2, by rw [hravel]; exact h1, ?_⟩
  rw [h2, hravel, h1]
  simp

/-- With events but no comparable pair (here the single event's comparison
set `y_pred[v > 5]` is empty), every level of the outer sum is the scalar
0, `numerator_denominator` is 0-d, and the source's `[0]`-indexing raises:
the model returns `err`, not a 0/0 value. -/
theorem c_index_ours_no_pairs_err :
    c_index_ours [(1 : ℚ)] [(1 : ℚ)] [1] [5] = .err := by
  simp [c_index_ours, eventMask, int8OfRat_one, select]
